import Mathlib

/-!
Verification of the graph state & derivation engine of the sgagraph
repository (`src/components/constellations/data.ts` and
`src/components/ConstellationsGraph.tsx`).

The TypeScript code is shallowly embedded: strings are Lean `String`
(JavaScript string ids), JS `Set<string>` is `Finset String`, JS `Map`
objects built by push-per-key are total functions `String → List _`
returning `[]` for absent keys, and JS numbers appearing in the claims
(line/column positions, comparator results, roman values) are `Int`
(all arithmetic involved is integral).  JS `localeCompare` is modelled
as code-point comparison; `String.prototype.trim` and `\s` are modelled
over the ASCII whitespace characters.  Option fields model optional /
possibly-`undefined` JS fields, with JS `||` falsiness (absent or `""`)
made explicit.
-/

namespace SGA

/-- JS `a || d` for an optional string `a`: `undefined`/`null` and the
empty string are falsy and yield the default. -/
def jsOr (o : Option String) (d : String) : String :=
  match o with
  | none => d
  | some s => if s = "" then d else s

/-- JS `a || b` where both sides are optional strings (used for
`reference_type || referenceType || null` chains). -/
def jsOrOpt (o : Option String) (d : Option String) : Option String :=
  match o with
  | none => d
  | some s => if s = "" then d else some s

/-! ## Ordering module (`data.ts`): romanToInt, labelSortKey, compareLex -/

/-- The per-character value table of `romanToInt` (`map[s[i]] ?? 0`):
characters outside the table contribute 0. -/
def romanVal (c : Char) : Int :=
  if c = 'I' then 1
  else if c = 'V' then 5
  else if c = 'X' then 10
  else if c = 'L' then 50
  else if c = 'C' then 100
  else if c = 'D' then 500
  else if c = 'M' then 1000
  else 0

/-- The subtractive accumulation loop of `romanToInt`: each character is
subtracted when its value is strictly smaller than the next character's
value (`map[s[i+1]] ?? 0`, i.e. 0 past the end), added otherwise. -/
def romanLoop : List Char → Int
  | [] => 0
  | c :: rest =>
    let cur := romanVal c
    let next := match rest with | [] => 0 | d :: _ => romanVal d
    (if cur < next then -cur else cur) + romanLoop rest

/-- `romanToInt(roman)` from `data.ts`: uppercases, then runs the
subtractive loop.  The final `out || 0` of the source is the identity on
integer results (it only guards `NaN`/`-0`, which cannot arise). -/
def romanToInt (roman : String) : Int :=
  romanLoop (roman.data.map Char.toUpper)

/-- A character of the Roman-numeral alphabet `[IVXLCDM]`, matched
case-insensitively as in the `labelSortKey` regex. -/
def isRomanLetter (c : Char) : Bool :=
  ['I', 'V', 'X', 'L', 'C', 'D', 'M'].contains c.toUpper

/-- ASCII whitespace, modelling JS `\s` / `trim()` on the character set
relevant to the data (JS additionally trims rare Unicode spaces). -/
def jsWhitespace (c : Char) : Bool :=
  c == ' ' || c == '\t' || c == '\n' || c == '\r' || c == '\x0b' || c == '\x0c'

/-- JS `String.prototype.trim`. -/
def jsTrim (s : String) : String :=
  String.mk (((s.data.dropWhile jsWhitespace).reverse.dropWhile jsWhitespace).reverse)

/-- Maximal digit runs of a character list, in order: the nonempty
tokens of JS `rest.split(/[^0-9]+/)` after `filter(Boolean)`.  `cur`
accumulates the current run in reverse. -/
def digitRunsGo : List Char → List Char → List (List Char)
  | cur, [] => if cur.isEmpty then [] else [cur.reverse]
  | cur, c :: rest =>
    if c.isDigit then digitRunsGo (c :: cur) rest
    else if cur.isEmpty then digitRunsGo [] rest
    else cur.reverse :: digitRunsGo [] rest

/-- JS `Number` on a nonempty digit string. -/
def natFromDigits (run : List Char) : Nat :=
  run.foldl (fun n c => 10 * n + (c.toNat - 48)) 0

/-- A JS `number | string` sort-key component as produced by
`labelSortKey`. -/
inductive SVal where
  | num (n : Int)
  | str (s : String)
deriving DecidableEq

/-- JS `String(v)` on a sort-key component (`String` of an integral
number prints as in Lean's `Int.toString`). -/
def svalStr : SVal → String
  | .num n => toString n
  | .str s => s

/-- `labelSortKey(label)` from `data.ts`: the label is trimmed and
matched against `/^([IVXLCDM]+)\s*:(.*)$/i`; on a match the key is
`[romanToInt(m[1]), ...digit runs of m[2]]`, otherwise `[trimmed label]`.
`(.*)$` cannot match across a line terminator, so a remainder containing
one makes the whole match fail. -/
def labelSortKey (label : String) : List SVal :=
  let t := jsTrim label
  let cs := t.data
  let rom := cs.takeWhile isRomanLetter
  let rest1 := (cs.dropWhile isRomanLetter).dropWhile jsWhitespace
  if rom.isEmpty then [.str t]
  else
    match rest1 with
    | ':' :: rest =>
      if rest.any (fun c => c == '\n' || c == '\r') then [.str t]
      else .num (romanToInt (String.mk rom)) ::
        (digitRunsGo [] rest).map (fun run => .num (Int.ofNat (natFromDigits run)))
    | _ => [.str t]

/-- Code-point comparison of character lists: the sign model of JS
`localeCompare` used by the comparators. -/
def cmpCharList : List Char → List Char → Int
  | [], [] => 0
  | [], _ :: _ => -1
  | _ :: _, [] => 1
  | a :: as1, b :: bs1 =>
    if a.toNat < b.toNat then -1
    else if b.toNat < a.toNat then 1
    else cmpCharList as1 bs1

/-- `a.localeCompare(b)`, modelled by code points. -/
def cmpStr (a b : String) : Int :=
  cmpCharList a.data b.data

/-- `compareLex` from `data.ts`: lexicographic comparison of mixed
number/string key arrays.  A missing component (`undefined`, i.e. the
shorter array) sorts first; two numbers compare by difference; all other
pairs compare their `String(...)` forms, continuing on equality. -/
def compareLex : List SVal → List SVal → Int
  | [], [] => 0
  | [], _ :: _ => -1
  | _ :: _, [] => 1
  | a :: as1, b :: bs1 =>
    match a, b with
    | .num x, .num y => if x ≠ y then x - y else compareLex as1 bs1
    | a, b =>
      let xs := svalStr a
      let ys := svalStr b
      if xs ≠ ys then cmpStr xs ys else compareLex as1 bs1

/-! ## Node model and compareFirstOccurrence -/

/-- The optional `position` payload of a node. -/
structure NodePosition where
  line_start : Option Int := none
  col_start : Option Int := none
deriving DecidableEq

/-- A constellation node, restricted to the fields the state engine
reads: `id`, `type`, `label`, `position` and the derived `orderIndex`. -/
structure ConstellationNode where
  id : String
  type : String := ""
  label : Option String := none
  position : Option NodePosition := none
  orderIndex : Option Nat := none
deriving DecidableEq

/-- `typeof ap?.line_start === 'number' ? ap.line_start : null`. -/
def lineOf (n : ConstellationNode) : Option Int :=
  match n.position with
  | some p => p.line_start
  | none => none

/-- `typeof ap?.col_start === 'number' ? ap.col_start : null`. -/
def colOf (n : ConstellationNode) : Option Int :=
  match n.position with
  | some p => p.col_start
  | none => none

/-- `(a.label ?? '').toString().trim()`. -/
def labelOf (n : ConstellationNode) : String :=
  jsTrim (n.label.getD "")

/-- The label/id tail of `compareFirstOccurrence`: nonempty labels
compare via `compareLex` of their sort keys, a present label sorts
before an absent one, and ids break the final tie. -/
def cfoLabelStage (a b : ConstellationNode) : Int :=
  let al := labelOf a
  let bl := labelOf b
  if al ≠ "" ∧ bl ≠ "" then compareLex (labelSortKey al) (labelSortKey bl)
  else if al ≠ "" ∧ bl = "" then -1
  else if al = "" ∧ bl ≠ "" then 1
  else cmpStr a.id b.id

/-- The `col_start` stage: only when both columns are present and differ
does the column decide; in every other case control falls through to the
label stage (columns have no present-before-absent rule). -/
def cfoColStage (a b : ConstellationNode) : Int :=
  match colOf a, colOf b with
  | some x, some y => if x ≠ y then x - y else cfoLabelStage a b
  | _, _ => cfoLabelStage a b

/-- `compareFirstOccurrence(a, b)` from `data.ts`: `line_start`
ascending with present-before-absent, then `col_start`, then labels,
then ids. -/
def compareFirstOccurrence (a b : ConstellationNode) : Int :=
  match lineOf a, lineOf b with
  | some x, some y => if x ≠ y then x - y else cfoColStage a b
  | some _, none => -1
  | none, some _ => 1
  | none, none => cfoColStage a b

/-! ## Edge model and the semantics normalizer -/

/-- A constellation edge: `source`/`target` hold node ids (the
`typeof e.source === 'object'` unwrapping of D3-bound edges is already
applied), with the optional raw classifier fields. -/
structure ConstellationEdge where
  source : String
  target : String
  dependency_type : Option String := none
  reference_type : Option String := none
  referenceType : Option String := none
  type : Option String := none
  context : Option String := none
deriving DecidableEq

/-- `const dep = e.dependency_type || 'internal'`. -/
def depOf (e : ConstellationEdge) : String :=
  jsOr e.dependency_type "internal"

/-- `const ref = e.reference_type || e.referenceType || null`. -/
def refOf (e : ConstellationEdge) : Option String :=
  jsOrOpt e.reference_type (jsOrOpt e.referenceType none)

/-- `const typ = e.type || null`. -/
def typOf (e : ConstellationEdge) : Option String :=
  jsOrOpt e.type none

/-- The per-edge normalization of `processGraphData` (`data.ts`
lines 90–127): the if-chain over `dep`, returning `none` for the
dropped `provides_remark` edges. -/
def normalizeEdge (e : ConstellationEdge) : Option ConstellationEdge :=
  if depOf e = "used_in" then
    some { e with dependency_type := some "used_in" }
  else if depOf e = "uses_result" ∨ depOf e = "uses_definition" ∨ depOf e = "is_corollary_of" then
    some { e with dependency_type := some "used_in", source := e.target, target := e.source }
  else if depOf e = "is_generalization_of" ∨ depOf e = "generalized_by" then
    some { e with dependency_type := some "generalized_by", source := e.target, target := e.source }
  else if depOf e = "internal" ∧ (refOf e = some "internal" ∨ typOf e = some "internal") then
    some { e with dependency_type := some "internal", source := e.target, target := e.source }
  else if depOf e = "provides_remark" then
    none
  else
    some e

/-! ## processGraphData: ordering, orderIndex assignment, adjacency -/

/-- The comparator relation used to model the stable
`[...nodes].sort(compareFirstOccurrence)` call. -/
def cfoLe (a b : ConstellationNode) : Prop :=
  compareFirstOccurrence a b ≤ 0

instance : DecidableRel cfoLe :=
  fun a b => inferInstanceAs (Decidable (compareFirstOccurrence a b ≤ 0))

/-- `nodes.forEach((n, i) => { n.orderIndex = i + 1 })`, starting the
index at `i`. -/
def assignOrder (i : Nat) : List ConstellationNode → List ConstellationNode
  | [] => []
  | n :: ns => { n with orderIndex := some (i + 1) } :: assignOrder (i + 1) ns

/-- One `{s, t, dep}` adjacency record. -/
structure AdjEntry where
  s : String
  t : String
  dep : String
deriving DecidableEq

/-- The adjacency record pushed for an edge. -/
def adjOf (e : ConstellationEdge) : AdjEntry :=
  { s := e.source, t := e.target, dep := jsOr e.dependency_type "internal" }

/-- `if (!map.has(k)) map.set(k, []); map.get(k).push(v)`, with the JS
`Map` modelled as a total function defaulting to `[]`. -/
def mapPush (m : String → List AdjEntry) (k : String) (v : AdjEntry) :
    String → List AdjEntry :=
  fun x => if x = k then m x ++ [v] else m x

/-- The `outgoingEdgesBySource` map built by the per-edge loop of
`processGraphData`. -/
def buildOutgoing (edges : List ConstellationEdge) : String → List AdjEntry :=
  edges.foldl (fun m e => mapPush m (adjOf e).s (adjOf e)) (fun _ => [])

/-- The `incomingEdgesByTarget` map built by the same loop. -/
def buildIncoming (edges : List ConstellationEdge) : String → List AdjEntry :=
  edges.foldl (fun m e => mapPush m (adjOf e).t (adjOf e)) (fun _ => [])

/-- The raw `{nodes, edges}` input of `processGraphData`. -/
structure ConstellationGraphData where
  nodes : List ConstellationNode
  edges : List ConstellationEdge

/-- The outputs of `processGraphData` the state engine consumes
(the node-type/color partitions are presentation data and are not
modelled). -/
structure ProcessedGraph where
  nodes : List ConstellationNode
  edges : List ConstellationEdge
  outgoingEdgesBySource : String → List AdjEntry
  incomingEdgesByTarget : String → List AdjEntry

/-- `processGraphData` from `data.ts`: normalize edges (dropping the
`null` results), sort all nodes by `compareFirstOccurrence`, assign
dense `orderIndex` values over the whole sorted list, and rebuild both
adjacency maps from the full normalized edge set with no check that the
referenced ids exist as nodes. -/
def processGraphData (gd : ConstellationGraphData) : ProcessedGraph :=
  let edges := gd.edges.filterMap normalizeEdge
  let nodes := assignOrder 0 (List.insertionSort cfoLe gd.nodes)
  { nodes := nodes
    edges := edges
    outgoingEdgesBySource := buildOutgoing edges
    incomingEdgesByTarget := buildIncoming edges }

/-- `edgeKey(s, t)` from `data.ts`. -/
def edgeKey (s t : String) : String :=
  s ++ "=>" ++ t

/-! ## Live-replay sequencer (`ConstellationsGraph.tsx`) -/

/-- The replay state held in `liveReplayStateRef`: the order snapshot,
the full edge set, and the growing visible sets. -/
structure ReplayState where
  ordered : List ConstellationNode
  edges : List ConstellationEdge
  visibleNodes : Finset String
  visibleEdges : Finset String
deriving DecidableEq

/-- The per-tick edge scan of `reveal`: every edge whose two endpoints
are in the (already updated) visible-node set contributes its
`edgeKey` to the visible-edge set. -/
def revealEdgeScan (edges : List ConstellationEdge) (vn : Finset String)
    (acc : Finset String) : Finset String :=
  edges.foldl
    (fun acc2 e =>
      if e.source ∈ vn ∧ e.target ∈ vn then insert (edgeKey e.source e.target) acc2
      else acc2)
    acc

/-- One `reveal()` tick: the cursor is `visibleNodes.size`; past the end
of `ordered` the tick stops the replay and leaves the sets untouched,
otherwise it adds the next node's id and rescans all edges. -/
def reveal (st : ReplayState) : ReplayState :=
  match st.ordered[st.visibleNodes.card]? with
  | none => st
  | some next =>
    let vn := insert next.id st.visibleNodes
    { st with
      visibleNodes := vn
      visibleEdges := revealEdgeScan st.edges vn st.visibleEdges }

/-- The comparator relation of `startLiveReplay`'s
`(a, b) => Number(a.orderIndex ?? 1e9) - Number(b.orderIndex ?? 1e9)`
sort. -/
def replayLe (a b : ConstellationNode) : Prop :=
  a.orderIndex.getD 1000000000 ≤ b.orderIndex.getD 1000000000

instance : DecidableRel replayLe :=
  fun a b =>
    inferInstanceAs (Decidable (a.orderIndex.getD 1000000000 ≤ b.orderIndex.getD 1000000000))

/-- The replay state `startLiveReplay` deposits in
`liveReplayStateRef`: nodes sorted by reading order, the full edge set,
and both visible sets empty.  (The immediate `reveal()` call and the
interval timer then drive the ticks.) -/
def startLiveReplay (nodes : List ConstellationNode)
    (edges : List ConstellationEdge) : ReplayState :=
  { ordered := List.insertionSort replayLe nodes
    edges := edges
    visibleNodes := ∅
    visibleEdges := ∅ }

/-! ## Proof-mode state machine and replay control
(`ConstellationsGraph.tsx`) -/

/-- The mutable component state of `ConstellationsGraph`, restricted to
the fields the state engine reads and writes: the `state` record's proof
and pin fields together with the replay refs (`liveReplayTimerRef`
modelled as a Boolean "a timer is installed", `liveReplayStateRef` as an
optional `ReplayState`). -/
structure ComponentState where
  proofMode : Bool
  proofTargetId : Option String
  proofDepth : Nat
  proofVisibleNodes : Finset String
  proofVisibleEdges : Finset String
  pinned : Bool
  pinnedNode : Option String
  liveReplayRunning : Bool
  liveReplayTimer : Bool
  liveReplayState : Option ReplayState
deriving DecidableEq

/-- Modelled from the spec: one backward expansion step of the
proof-subgraph closure of §4.4 (the `recomputeProofSubgraph` function
lives in `constellations/proof.ts`, which is not part of the sources):
from a visible set, every source of an incoming prerequisite edge of a
visible node becomes visible. -/
def expandPrereqs (incoming : String → List AdjEntry) (S : Finset String) :
    Finset String :=
  S ∪ S.biUnion (fun t => ((incoming t).map (fun a => a.s)).toFinset)

/-- Modelled from the spec: the bounded-depth prerequisite closure of
§4.4 — `depth` backward hops from the target along
`incomingEdgesByTarget`. -/
def prereqClosure (incoming : String → List AdjEntry) (tid : String) :
    Nat → Finset String
  | 0 => {tid}
  | d + 1 => expandPrereqs incoming (prereqClosure incoming tid d)

/-- Modelled from the spec: `recomputeProofSubgraph` of §4.4
(implemented in `constellations/proof.ts`, not part of the sources):
recompute `proofVisibleNodes` as the bounded-depth closure of the
current target and depth, and `proofVisibleEdges` as the keys of the
edges with both endpoints visible.  It reads but never writes
`proofDepth`. -/
def recomputeProofSubgraph (incoming : String → List AdjEntry)
    (edges : List AdjEntry) (st : ComponentState) : ComponentState :=
  let visible := prereqClosure incoming (st.proofTargetId.getD "") st.proofDepth
  { st with
    proofVisibleNodes := visible
    proofVisibleEdges :=
      ((edges.filter (fun a => decide (a.s ∈ visible ∧ a.t ∈ visible))).map
        (fun a => edgeKey a.s a.t)).toFinset }

/-- `unfoldMore` from `ConstellationsGraph.tsx` (lines 404–421):
a no-op outside proof mode; a no-op when
`maxDepth <= state.proofDepth` (the guard that keeps "Unfold More" from
shrinking the depth); otherwise sets
`proofDepth = min(maxDepth, proofDepth + 1)` and recomputes.
`maxDepth` is the value returned by `getMaxPrereqDepth` of the external
`constellations/proof.ts` module. -/
def unfoldMore (maxDepth : Nat) (incoming : String → List AdjEntry)
    (edges : List AdjEntry) (st : ComponentState) : ComponentState :=
  if st.proofMode = false then st
  else if maxDepth ≤ st.proofDepth then st
  else
    recomputeProofSubgraph incoming edges
      { st with proofDepth := min maxDepth (st.proofDepth + 1) }

/-- `exitProofMode` from `ConstellationsGraph.tsx` (lines 367–378): the
state fields it assigns.  (The remaining statements are DOM updates:
deselect, hide the info panel, restore visibility.) -/
def exitProofMode (st : ComponentState) : ComponentState :=
  { st with
    proofMode := false
    proofTargetId := none
    proofVisibleNodes := ∅
    proofVisibleEdges := ∅
    pinned := false
    pinnedNode := none }

/-- `stopLiveReplay` from `ConstellationsGraph.tsx` (lines 299–307):
clears the interval timer, nulls `liveReplayStateRef.current`, and sets
`liveReplayRunning` to false.  (`updateVisibility()` is a DOM update.) -/
def stopLiveReplay (st : ComponentState) : ComponentState :=
  { st with
    liveReplayTimer := false
    liveReplayState := none
    liveReplayRunning := false }

/-- A node with its derived `orderIndex` erased; used to compare the
node payloads of `processGraphData`'s output with its input. -/
def clearOrderIndex (n : ConstellationNode) : ConstellationNode :=
  { n with orderIndex := none }

/-- "`s` contains the substring `=>`". -/
def containsArrow (s : String) : Prop :=
  ("=>" : String).data <:+: s.data

instance (s : String) : Decidable (containsArrow s) :=
  inferInstanceAs (Decidable (_ <:+: _))

/-- The raw edge of the spec's concrete scenario,
`{source: "A", target: "B", dependency_type: "uses_result"}`. -/
def usesResultAB : ConstellationEdge :=
  { source := "A", target := "B", dependency_type := some "uses_result" }

/-- A node on line 1, column 1, labelled `Z`. -/
def nodeZ : ConstellationNode :=
  { id := "a", label := some "Z", position := some { line_start := some 1, col_start := some 1 } }

/-- A node on line 1 with no column, labelled `M`. -/
def nodeM : ConstellationNode :=
  { id := "b", label := some "M", position := some { line_start := some 1, col_start := none } }

/-- A node on line 1, column 2, labelled `A`. -/
def nodeA : ConstellationNode :=
  { id := "c", label := some "A", position := some { line_start := some 1, col_start := some 2 } }

/-- A two-node reading-order snapshot used to exercise the replay. -/
def replayNodesAB : List ConstellationNode :=
  [{ id := "a", orderIndex := some 1 }, { id := "b", orderIndex := some 2 }]

/-- The single edge `a → b` of the replay example. -/
def replayEdgesAB : List ConstellationEdge :=
  [{ source := "a", target := "b", dependency_type := some "used_in" }]

/-! ## Helper lemmas -/

/-- JS truthy-default: if `a || d` is a value other than the default,
then `a` was that (nonempty) value. -/
theorem jsOr_eq_some {o : Option String} {d v : String}
    (h : jsOr o d = v) (hne : v ≠ d) : o = some v := by
  cases o with
  | none => exact absurd h.symm hne
  | some s =>
    by_cases hs : s = ""
    · rw [jsOr, if_pos hs] at h
      exact absurd h.symm hne
    · rw [jsOr, if_neg hs] at h
      rw [h]

theorem romanLoop_eq_zero {l : List Char} (h : ∀ c ∈ l, romanVal c = 0) :
    romanLoop l = 0 := by
  induction l with
  | nil => rfl
  | cons c rest ih =>
    have hc : romanVal c = 0 := h c (List.mem_cons_self c rest)
    have hnext : (match rest with | [] => 0 | d :: _ => romanVal d) = 0 := by
      cases rest with
      | nil => rfl
      | cons d rest' => exact h d (List.mem_cons_of_mem c (List.mem_cons_self d rest'))
    simp only [romanLoop, hc, hnext]
    rw [ih (fun c hc => h c (List.mem_cons_of_mem _ hc))]
    norm_num

theorem cmpCharList_anti : ∀ xs ys : List Char,
    cmpCharList xs ys = -cmpCharList ys xs := by
  intro xs
  induction xs with
  | nil => intro ys; cases ys <;> simp [cmpCharList]
  | cons a as ih =>
    intro ys
    cases ys with
    | nil => simp [cmpCharList]
    | cons b bs =>
      show (if a.toNat < b.toNat then (-1 : Int)
          else if b.toNat < a.toNat then 1 else cmpCharList as bs) =
        -(if b.toNat < a.toNat then (-1 : Int)
          else if a.toNat < b.toNat then 1 else cmpCharList bs as)
      rcases Nat.lt_trichotomy a.toNat b.toNat with h | h | h
      · rw [if_pos h, if_neg (by omega), if_pos h]
      · rw [if_neg (by omega), if_neg (by omega), if_neg (by omega),
          if_neg (by omega), ih bs]
      · rw [if_neg (by omega), if_pos h, if_pos h]
        norm_num

theorem cmpStr_anti (a b : String) : cmpStr a b = -cmpStr b a :=
  cmpCharList_anti a.data b.data

theorem compareLex_num_num (x y : Int) (as bs : List SVal) :
    compareLex (.num x :: as) (.num y :: bs) =
      if x ≠ y then x - y else compareLex as bs := rfl

theorem compareLex_anti : ∀ xs ys : List SVal,
    compareLex xs ys = -compareLex ys xs := by
  intro xs
  induction xs with
  | nil => intro ys; cases ys <;> simp [compareLex]
  | cons a as ih =>
    intro ys
    cases ys with
    | nil => simp [compareLex]
    | cons b bs =>
      cases a with
      | num x =>
        cases b with
        | num y =>
          rw [compareLex_num_num, compareLex_num_num]
          by_cases h : x = y
          · rw [if_neg (by omega), if_neg (by omega), ih bs]
          · rw [if_pos h, if_pos (Ne.symm h)]
            omega
        | str t =>
          show (if svalStr (.num x) ≠ svalStr (.str t) then
              cmpStr (svalStr (.num x)) (svalStr (.str t)) else compareLex as bs) =
            -(if svalStr (.str t) ≠ svalStr (.num x) then
              cmpStr (svalStr (.str t)) (svalStr (.num x)) else compareLex bs as)
          by_cases h : svalStr (.num x) = svalStr (.str t)
          · rw [if_neg (fun hc => hc h), if_neg (fun hc => hc h.symm), ih bs]
          · rw [if_pos h, if_pos (Ne.symm h)]
            exact cmpStr_anti _ _
      | str s =>
        cases b with
        | num y =>
          show (if svalStr (.str s) ≠ svalStr (.num y) then
              cmpStr (svalStr (.str s)) (svalStr (.num y)) else compareLex as bs) =
            -(if svalStr (.num y) ≠ svalStr (.str s) then
              cmpStr (svalStr (.num y)) (svalStr (.str s)) else compareLex bs as)
          by_cases h : svalStr (.str s) = svalStr (.num y)
          · rw [if_neg (fun hc => hc h), if_neg (fun hc => hc h.symm), ih bs]
          · rw [if_pos h, if_pos (Ne.symm h)]
            exact cmpStr_anti _ _
        | str t =>
          show (if svalStr (.str s) ≠ svalStr (.str t) then
              cmpStr (svalStr (.str s)) (svalStr (.str t)) else compareLex as bs) =
            -(if svalStr (.str t) ≠ svalStr (.str s) then
              cmpStr (svalStr (.str t)) (svalStr (.str s)) else compareLex bs as)
          by_cases h : svalStr (.str s) = svalStr (.str t)
          · rw [if_neg (fun hc => hc h), if_neg (fun hc => hc h.symm), ih bs]
          · rw [if_pos h, if_pos (Ne.symm h)]
            exact cmpStr_anti _ _

theorem cfoLabelStage_anti (a b : ConstellationNode) :
    cfoLabelStage a b = -cfoLabelStage b a := by
  show (if labelOf a ≠ "" ∧ labelOf b ≠ "" then
      compareLex (labelSortKey (labelOf a)) (labelSortKey (labelOf b))
    else if labelOf a ≠ "" ∧ labelOf b = "" then -1
    else if labelOf a = "" ∧ labelOf b ≠ "" then 1
    else cmpStr a.id b.id) =
    -(if labelOf b ≠ "" ∧ labelOf a ≠ "" then
      compareLex (labelSortKey (labelOf b)) (labelSortKey (labelOf a))
    else if labelOf b ≠ "" ∧ labelOf a = "" then -1
    else if labelOf b = "" ∧ labelOf a ≠ "" then 1
    else cmpStr b.id a.id)
  by_cases ha : labelOf a = "" <;> by_cases hb : labelOf b = ""
  · rw [if_neg (fun hc => hc.1 ha), if_neg (fun hc => hc.1 ha),
      if_neg (fun hc => hc.2 hb), if_neg (fun hc => hc.1 hb),
      if_neg (fun hc => hc.1 hb), if_neg (fun hc => hc.2 ha)]
    exact cmpStr_anti _ _
  · rw [if_neg (fun hc => hc.1 ha), if_neg (fun hc => hc.1 ha),
      if_pos ⟨ha, hb⟩, if_neg (fun hc => hc.2 ha), if_pos ⟨hb, ha⟩]
    norm_num
  · rw [if_neg (fun hc => hc.2 hb), if_pos ⟨ha, hb⟩,
      if_neg (fun hc => hc.1 hb), if_neg (fun hc => hc.1 hb),
      if_pos ⟨hb, ha⟩]
  · rw [if_pos ⟨ha, hb⟩, if_pos ⟨hb, ha⟩]
    exact compareLex_anti _ _

theorem cfoColStage_anti (a b : ConstellationNode) :
    cfoColStage a b = -cfoColStage b a := by
  rw [cfoColStage, cfoColStage]
  rcases hca : colOf a with - | x <;> rcases hcb : colOf b with - | y
  · exact cfoLabelStage_anti a b
  · exact cfoLabelStage_anti a b
  · exact cfoLabelStage_anti a b
  · show (if x ≠ y then x - y else cfoLabelStage a b) =
      -(if y ≠ x then y - x else cfoLabelStage b a)
    by_cases h : x = y
    · rw [if_neg (fun hc => hc h), if_neg (fun hc => hc h.symm)]
      exact cfoLabelStage_anti a b
    · rw [if_pos h, if_pos (Ne.symm h)]
      omega

theorem compareFirstOccurrence_anti (a b : ConstellationNode) :
    compareFirstOccurrence a b = -compareFirstOccurrence b a := by
  rw [compareFirstOccurrence, compareFirstOccurrence]
  rcases hla : lineOf a with - | x <;> rcases hlb : lineOf b with - | y
  · exact cfoColStage_anti a b
  · show (1 : Int) = -(-1)
    norm_num
  · show (-1 : Int) = -(1)
    norm_num
  · show (if x ≠ y then x - y else cfoColStage a b) =
      -(if y ≠ x then y - x else cfoColStage b a)
    by_cases h : x = y
    · rw [if_neg (fun hc => hc h), if_neg (fun hc => hc h.symm)]
      exact cfoColStage_anti a b
    · rw [if_pos h, if_pos (Ne.symm h)]
      omega

theorem foldl_mapPush_s (edges : List ConstellationEdge) :
    ∀ (m : String → List AdjEntry) (k : String),
      (edges.foldl (fun m e => mapPush m (adjOf e).s (adjOf e)) m) k =
        m k ++ (edges.map adjOf).filter (fun a => decide (a.s = k)) := by
  induction edges with
  | nil => intro m k; simp
  | cons e rest ih =>
    intro m k
    rw [List.foldl_cons, ih]
    by_cases h : (adjOf e).s = k
    · simp [mapPush, h, List.filter_cons]
    · have h' : ¬ k = (adjOf e).s := fun hk => h hk.symm
      simp [mapPush, h, h', List.filter_cons]

theorem foldl_mapPush_t (edges : List ConstellationEdge) :
    ∀ (m : String → List AdjEntry) (k : String),
      (edges.foldl (fun m e => mapPush m (adjOf e).t (adjOf e)) m) k =
        m k ++ (edges.map adjOf).filter (fun a => decide (a.t = k)) := by
  induction edges with
  | nil => intro m k; simp
  | cons e rest ih =>
    intro m k
    rw [List.foldl_cons, ih]
    by_cases h : (adjOf e).t = k
    · simp [mapPush, h, List.filter_cons]
    · have h' : ¬ k = (adjOf e).t := fun hk => h hk.symm
      simp [mapPush, h, h', List.filter_cons]

theorem assignOrder_map_orderIndex :
    ∀ (i : Nat) (l : List ConstellationNode),
      (assignOrder i l).map (fun n => n.orderIndex) =
        (List.range' (i + 1) l.length).map some := by
  intro i l
  induction l generalizing i with
  | nil => simp [assignOrder]
  | cons n ns ih => simp [assignOrder, List.range'_succ, ih]

theorem assignOrder_map_clear :
    ∀ (i : Nat) (l : List ConstellationNode),
      (assignOrder i l).map clearOrderIndex = l.map clearOrderIndex := by
  intro i l
  induction l generalizing i with
  | nil => rfl
  | cons n ns ih => simp [assignOrder, clearOrderIndex, ih]

theorem string_data_append (s t : String) : (s ++ t).data = s.data ++ t.data := by
  cases s
  cases t
  rfl

theorem delim_append_inj :
    ∀ (a c : List Char) {b d : List Char},
      ¬ (['=', '>'] <:+: b) → ¬ (['=', '>'] <:+: d) →
      a ++ '=' :: '>' :: b = c ++ '=' :: '>' :: d → a = c ∧ b = d := by
  intro a
  induction a with
  | nil =>
    intro c b d hb hd h
    cases c with
    | nil =>
      simp only [List.nil_append, List.cons.injEq] at h
      exact ⟨rfl, h.2.2⟩
    | cons x c' =>
      simp only [List.nil_append, List.cons_append, List.cons.injEq] at h
      obtain ⟨hx, h2⟩ := h
      cases c' with
      | nil =>
        simp only [List.nil_append, List.cons.injEq] at h2
        exact absurd h2.1 (by decide)
      | cons y c'' =>
        simp only [List.cons_append, List.cons.injEq] at h2
        obtain ⟨hy, h3⟩ := h2
        exact absurd ⟨c'', d, by rw [h3]; simp⟩ hb
  | cons x a' ih =>
    intro c b d hb hd h
    cases c with
    | nil =>
      simp only [List.cons_append, List.nil_append, List.cons.injEq] at h
      obtain ⟨hx, h2⟩ := h
      cases a' with
      | nil =>
        simp only [List.nil_append, List.cons.injEq] at h2
        exact absurd h2.1 (by decide)
      | cons y a'' =>
        simp only [List.cons_append, List.cons.injEq] at h2
        obtain ⟨hy, h3⟩ := h2
        exact absurd ⟨a'', b, by rw [← h3]; simp⟩ hd
    | cons z c' =>
      simp only [List.cons_append, List.cons.injEq] at h
      obtain ⟨hz, h2⟩ := h
      obtain ⟨h3, h4⟩ := ih c' hb hd h2
      exact ⟨by rw [hz, h3], h4⟩

theorem revealEdgeScan_cons (e : ConstellationEdge)
    (rest : List ConstellationEdge) (vn acc : Finset String) :
    revealEdgeScan (e :: rest) vn acc =
      revealEdgeScan rest vn
        (if e.source ∈ vn ∧ e.target ∈ vn then
          insert (edgeKey e.source e.target) acc
        else acc) := rfl

theorem subset_revealEdgeScan (edges : List ConstellationEdge)
    (vn : Finset String) : ∀ acc : Finset String,
    acc ⊆ revealEdgeScan edges vn acc := by
  induction edges with
  | nil => intro acc x hx; exact hx
  | cons e rest ih =>
    intro acc x hx
    rw [revealEdgeScan_cons]
    have hx' : x ∈ (if e.source ∈ vn ∧ e.target ∈ vn then
        insert (edgeKey e.source e.target) acc else acc) := by
      by_cases hc : e.source ∈ vn ∧ e.target ∈ vn
      · rw [if_pos hc]; exact Finset.mem_insert_of_mem hx
      · rw [if_neg hc]; exact hx
    exact ih _ hx'

theorem mem_revealEdgeScan (vn : Finset String) :
    ∀ (edges : List ConstellationEdge) (acc : Finset String)
      (e : ConstellationEdge), e ∈ edges → e.source ∈ vn → e.target ∈ vn →
      edgeKey e.source e.target ∈ revealEdgeScan edges vn acc := by
  intro edges
  induction edges with
  | nil => intro acc e he; cases he
  | cons e0 rest ih =>
    intro acc e he hs ht
    rw [revealEdgeScan_cons]
    rcases List.mem_cons.mp he with he0 | herest
    · subst he0
      have hmem : edgeKey e.source e.target ∈
          (if e.source ∈ vn ∧ e.target ∈ vn then
            insert (edgeKey e.source e.target) acc else acc) := by
        rw [if_pos ⟨hs, ht⟩]
        exact Finset.mem_insert_self _ _
      exact subset_revealEdgeScan rest vn _ hmem
    · exact ih _ e herest hs ht

theorem nodup_getElem_not_mem_take (l : List String) (hnd : l.Nodup)
    (k : Nat) (hk : k < l.length) : l[k] ∉ l.take k := by
  intro hmem
  have hnd2 : (l.take k ++ l.drop k).Nodup := by
    rw [List.take_append_drop]; exact hnd
  have hdisj := List.disjoint_of_nodup_append hnd2
  have hdropmem : l[k] ∈ l.drop k := by
    rw [List.drop_eq_getElem_cons hk]
    exact List.mem_cons_self _ _
  exact hdisj hmem hdropmem

theorem perm_toFinset {α : Type} [DecidableEq α] {l1 l2 : List α}
    (h : l1.Perm l2) : l1.toFinset = l2.toFinset := by
  ext x
  simp only [List.mem_toFinset]
  exact ⟨fun hx => h.mem_iff.mp hx, fun hx => h.mem_iff.mpr hx⟩

theorem reveal_step (st : ReplayState) (k : Nat) (hk : k < st.ordered.length)
    (hcard : st.visibleNodes.card = k) :
    reveal st = { st with
      visibleNodes := insert st.ordered[k].id st.visibleNodes
      visibleEdges := revealEdgeScan st.edges
        (insert st.ordered[k].id st.visibleNodes) st.visibleEdges } := by
  unfold reveal
  rw [hcard, List.getElem?_eq_getElem hk]

theorem reveal_iter_spec (ordered : List ConstellationNode)
    (edges : List ConstellationEdge)
    (hnd : (ordered.map (fun n => n.id)).Nodup) :
    ∀ k, k ≤ ordered.length →
      (reveal^[k] ⟨ordered, edges, ∅, ∅⟩).ordered = ordered ∧
      (reveal^[k] ⟨ordered, edges, ∅, ∅⟩).edges = edges ∧
      (reveal^[k] ⟨ordered, edges, ∅, ∅⟩).visibleNodes =
        ((ordered.take k).map (fun n => n.id)).toFinset ∧
      (∀ e ∈ edges,
        e.source ∈ (reveal^[k] ⟨ordered, edges, ∅, ∅⟩).visibleNodes →
        e.target ∈ (reveal^[k] ⟨ordered, edges, ∅, ∅⟩).visibleNodes →
        edgeKey e.source e.target ∈
          (reveal^[k] ⟨ordered, edges, ∅, ∅⟩).visibleEdges) := by
  intro k
  induction k with
  | zero =>
    intro _
    refine ⟨rfl, rfl, by simp, ?_⟩
    intro e he hs ht
    simp only [Function.iterate_zero_apply] at hs
    exact absurd hs (Finset.not_mem_empty _)
  | succ k ih =>
    intro hk1
    have hk : k ≤ ordered.length := Nat.le_of_succ_le hk1
    have hklt : k < ordered.length := hk1
    obtain ⟨ho, he, hv, hE⟩ := ih hk
    have hnodupTake : ((ordered.take k).map (fun n => n.id)).Nodup :=
      List.Nodup.sublist ((List.take_sublist k ordered).map _) hnd
    have hcard : (reveal^[k] ⟨ordered, edges, ∅, ∅⟩).visibleNodes.card = k := by
      rw [hv, List.toFinset_card_of_nodup hnodupTake, List.length_map,
        List.length_take]
      exact Nat.min_eq_left hk
    have hstep := reveal_step (reveal^[k] ⟨ordered, edges, ∅, ∅⟩) k
      (by rw [ho]; exact hklt) hcard
    rw [Function.iterate_succ_apply', hstep]
    refine ⟨ho, he, ?_, ?_⟩
    · simp only [ho, hv]
      ext x
      simp only [Finset.mem_insert, List.mem_toFinset, List.map_take]
      rw [List.take_succ]
      have hklt' : k < (List.map (fun n => n.id) ordered).length := by
        rw [List.length_map]; exact hklt
      rw [List.getElem?_eq_getElem hklt']
      simp [or_comm]
    · intro e he' hs ht
      show edgeKey e.source e.target ∈ revealEdgeScan
        (reveal^[k] ⟨ordered, edges, ∅, ∅⟩).edges _ _
      rw [he]
      exact mem_revealEdgeScan _ edges _ e he' hs ht

/-! ## Claim theorems -/

/-- C10: `edgeKey` collisions can only arise from ids containing the
delimiter: if none of the four ids contains the substring `"=>"`, equal
edge keys force equal `(source, target)` pairs, so de-duplication and
visibility membership by `EdgeKey` identify exactly one pair. -/
theorem edgeKey_injective (s1 t1 s2 t2 : String)
    (_hs1 : ¬ containsArrow s1) (ht1 : ¬ containsArrow t1)
    (_hs2 : ¬ containsArrow s2) (ht2 : ¬ containsArrow t2)
    (h : edgeKey s1 t1 = edgeKey s2 t2) :
    s1 = s2 ∧ t1 = t2 := by
  have hd : s1.data ++ '=' :: '>' :: t1.data = s2.data ++ '=' :: '>' :: t2.data := by
    have h2 := congrArg String.data h
    simpa [edgeKey, string_data_append] using h2
  obtain ⟨h1, h2⟩ := delim_append_inj s1.data s2.data ht1 ht2 hd
  exact ⟨String.ext h1, String.ext h2⟩

theorem edgeKey_injective_witness :
    (¬ containsArrow "a") ∧ (¬ containsArrow "b") ∧
    ("a" = "a" ∧ "b" = "b") :=
  ⟨by decide, by decide,
    edgeKey_injective "a" "b" "a" "b" (by decide) (by decide) (by decide)
      (by decide) rfl⟩

/-- C2: replay completeness — for a graph with `N` nodes (with distinct
ids, as the data model requires), after exactly `N` reveal ticks
starting from the empty visible sets, `visibleNodes` equals the full
node-id set and `visibleEdges` contains the `EdgeKey` of every edge
both of whose endpoints are node ids of the graph. -/
theorem liveReplay_completeness (nodes : List ConstellationNode)
    (edges : List ConstellationEdge)
    (hnd : (nodes.map (fun n => n.id)).Nodup) :
    (reveal^[nodes.length] (startLiveReplay nodes edges)).visibleNodes =
      (nodes.map (fun n => n.id)).toFinset ∧
    ∀ e ∈ edges, e.source ∈ nodes.map (fun n => n.id) →
      e.target ∈ nodes.map (fun n => n.id) →
      edgeKey e.source e.target ∈
        (reveal^[nodes.length] (startLiveReplay nodes edges)).visibleEdges := by
  have hperm : (List.insertionSort replayLe nodes).Perm nodes :=
    List.perm_insertionSort _ _
  have hpermIds : ((List.insertionSort replayLe nodes).map (fun n => n.id)).Perm
      (nodes.map (fun n => n.id)) := hperm.map _
  have hnd' : ((List.insertionSort replayLe nodes).map (fun n => n.id)).Nodup :=
    hpermIds.symm.nodup hnd
  have hlen : (List.insertionSort replayLe nodes).length = nodes.length :=
    hperm.length_eq
  obtain ⟨ho, he, hv, hE⟩ := reveal_iter_spec (List.insertionSort replayLe nodes)
    edges hnd' nodes.length hlen.ge
  have htake : (List.insertionSort replayLe nodes).take nodes.length =
      List.insertionSort replayLe nodes := by
    rw [← hlen]
    exact List.take_length _
  have hstart : startLiveReplay nodes edges =
      (⟨List.insertionSort replayLe nodes, edges, ∅, ∅⟩ : ReplayState) := rfl
  have hvn : (reveal^[nodes.length] (startLiveReplay nodes edges)).visibleNodes =
      (nodes.map (fun n => n.id)).toFinset := by
    rw [hstart, hv, htake]
    exact perm_toFinset hpermIds
  refine ⟨hvn, ?_⟩
  intro e he' hs ht
  rw [hstart]
  exact hE e he'
    (by rw [← hstart, hvn]; exact List.mem_toFinset.mpr hs)
    (by rw [← hstart, hvn]; exact List.mem_toFinset.mpr ht)

theorem liveReplay_completeness_witness :
    ((replayNodesAB.map (fun n => n.id)).Nodup) ∧
    (reveal^[replayNodesAB.length]
        (startLiveReplay replayNodesAB replayEdgesAB)).visibleNodes =
      (replayNodesAB.map (fun n => n.id)).toFinset :=
  ⟨by decide,
    (liveReplay_completeness replayNodesAB replayEdgesAB (by decide)).1⟩

/-- C5: after every `processGraphData` recomputation, `orderIndex` is
reassigned over the *entire* current node set: reading the
`orderIndex` field across the output nodes yields exactly
`some 1, some 2, …, some N` in sorted order (`N` = node count), i.e.
each node gets its sorted position + 1, dense and total; and the output
nodes are, up to the freshly written `orderIndex` field, a permutation
of the full input node set (never only the new nodes). -/
theorem processGraphData_orderIndex_dense (gd : ConstellationGraphData) :
    ((processGraphData gd).nodes).map (fun n => n.orderIndex) =
      (List.range' 1 gd.nodes.length).map some ∧
    List.Perm (((processGraphData gd).nodes).map clearOrderIndex)
      (gd.nodes.map clearOrderIndex) := by
  constructor
  · show (assignOrder 0 (List.insertionSort cfoLe gd.nodes)).map
        (fun n => n.orderIndex) = _
    rw [assignOrder_map_orderIndex]
    rw [(List.perm_insertionSort cfoLe gd.nodes).length_eq]
  · show ((assignOrder 0 (List.insertionSort cfoLe gd.nodes)).map
        clearOrderIndex).Perm _
    rw [assignOrder_map_clear]
    exact (List.perm_insertionSort cfoLe gd.nodes).map _

/-- C3: calling `unfoldMore` in proof mode never shrinks `proofDepth`:
when `maxDepth ≤ proofDepth` the call is a no-op, otherwise the depth
becomes `min maxDepth (proofDepth + 1)` (and the recomputation of the
visible sets never touches the depth). -/
theorem unfoldMore_never_shrinks (maxDepth : Nat)
    (incoming : String → List AdjEntry) (edges : List AdjEntry)
    (st : ComponentState) (h : st.proofMode = true) :
    st.proofDepth ≤ (unfoldMore maxDepth incoming edges st).proofDepth ∧
    (maxDepth ≤ st.proofDepth → unfoldMore maxDepth incoming edges st = st) ∧
    (st.proofDepth < maxDepth →
      (unfoldMore maxDepth incoming edges st).proofDepth =
        min maxDepth (st.proofDepth + 1)) := by
  have hmode : ¬ (st.proofMode = false) := by simp [h]
  by_cases hle : maxDepth ≤ st.proofDepth
  · rw [unfoldMore, if_neg hmode, if_pos hle]
    exact ⟨Nat.le_refl _, fun _ => rfl, fun hlt => absurd hle (Nat.not_le_of_lt hlt)⟩
  · rw [unfoldMore, if_neg hmode, if_neg hle]
    refine ⟨?_, fun hc => absurd hc hle, fun _ => rfl⟩
    have : st.proofDepth < maxDepth := Nat.lt_of_not_le hle
    show st.proofDepth ≤ min maxDepth (st.proofDepth + 1)
    omega

theorem unfoldMore_never_shrinks_witness :
    (({ proofMode := true, proofTargetId := some "t", proofDepth := 1,
        proofVisibleNodes := ∅, proofVisibleEdges := ∅, pinned := true,
        pinnedNode := some "t", liveReplayRunning := false,
        liveReplayTimer := false, liveReplayState := none } : ComponentState).proofMode
      = true) ∧
    (unfoldMore 3 (fun _ => []) []
        { proofMode := true, proofTargetId := some "t", proofDepth := 1,
          proofVisibleNodes := ∅, proofVisibleEdges := ∅, pinned := true,
          pinnedNode := some "t", liveReplayRunning := false,
          liveReplayTimer := false, liveReplayState := none }).proofDepth =
      min 3 (1 + 1) :=
  ⟨rfl,
    (unfoldMore_never_shrinks 3 (fun _ => []) []
      { proofMode := true, proofTargetId := some "t", proofDepth := 1,
        proofVisibleNodes := ∅, proofVisibleEdges := ∅, pinned := true,
        pinnedNode := some "t", liveReplayRunning := false,
        liveReplayTimer := false, liveReplayState := none } rfl).2.2 (by decide)⟩

/-- C6 (counterexample): an edge whose endpoints are not present in the
node set *does* produce adjacency entries — `processGraphData` on a
graph with no nodes and the single raw edge `x → y` yields a nonempty
`outgoingEdgesBySource` bucket at `"x"` and a nonempty
`incomingEdgesByTarget` bucket at `"y"`, refuting "produces no adjacency
entries until/unless the missing node later arrives". -/
theorem adjacency_missing_node_cex :
    (processGraphData { nodes := [], edges := [{ source := "x", target := "y" }] }).nodes
      = [] ∧
    (processGraphData
        { nodes := [], edges := [{ source := "x", target := "y" }] }).outgoingEdgesBySource
      "x" = [{ s := "x", t := "y", dep := "internal" }] ∧
    (processGraphData
        { nodes := [], edges := [{ source := "x", target := "y" }] }).incomingEdgesByTarget
      "y" = [{ s := "x", t := "y", dep := "internal" }] := by
  refine ⟨rfl, by decide, by decide⟩

/-- C6 (amended): the adjacency maps are built from the normalized edge
set alone — the bucket of any key `k` is exactly the list of normalized
edge records with that source (resp. target), with no reference to the
node set, so edges mentioning absent node ids are accepted and indexed
immediately (and simply have no node to pair with until it arrives). -/
theorem adjacency_from_edges_only (gd : ConstellationGraphData) (k : String) :
    (processGraphData gd).outgoingEdgesBySource k =
      ((gd.edges.filterMap normalizeEdge).map adjOf).filter
        (fun a => decide (a.s = k)) ∧
    (processGraphData gd).incomingEdgesByTarget k =
      ((gd.edges.filterMap normalizeEdge).map adjOf).filter
        (fun a => decide (a.t = k)) := by
  constructor
  · show buildOutgoing (gd.edges.filterMap normalizeEdge) k = _
    rw [buildOutgoing, foldl_mapPush_s]
    simp
  · show buildIncoming (gd.edges.filterMap normalizeEdge) k = _
    rw [buildIncoming, foldl_mapPush_t]
    simp

/-- C7 (counterexample): `exitProofMode` does not clear `proofDepth`:
from two states that agree except for their depth (5 resp. 7) it
produces states with depths 5 resp. 7, so exit leaves the depth at its
prior value instead of resetting it. -/
theorem exitProofMode_depth_cex :
    (exitProofMode
        { proofMode := true, proofTargetId := some "t", proofDepth := 5,
          proofVisibleNodes := {"t"}, proofVisibleEdges := ∅, pinned := true,
          pinnedNode := some "t", liveReplayRunning := false,
          liveReplayTimer := false, liveReplayState := none }).proofDepth = 5 ∧
    (exitProofMode
        { proofMode := true, proofTargetId := some "t", proofDepth := 7,
          proofVisibleNodes := {"t"}, proofVisibleEdges := ∅, pinned := true,
          pinnedNode := some "t", liveReplayRunning := false,
          liveReplayTimer := false, liveReplayState := none }).proofDepth = 7 :=
  ⟨rfl, rfl⟩

/-- C7 (amended): `exitProofMode` clears the proof target and both
visible sets and returns the machine to the inactive state (also
unpinning), but it leaves `proofDepth` unchanged (the depth is only
re-initialized to 1 by the next `enterProofMode`). -/
theorem exitProofMode_clears_except_depth (st : ComponentState) :
    (exitProofMode st).proofMode = false ∧
    (exitProofMode st).proofTargetId = none ∧
    (exitProofMode st).proofVisibleNodes = ∅ ∧
    (exitProofMode st).proofVisibleEdges = ∅ ∧
    (exitProofMode st).pinned = false ∧
    (exitProofMode st).pinnedNode = none ∧
    (exitProofMode st).proofDepth = st.proofDepth :=
  ⟨rfl, rfl, rfl, rfl, rfl, rfl, rfl⟩

/-- C8 (counterexample): `stopLiveReplay` does not leave the revealed
sets in place: it nulls `liveReplayStateRef.current`, so from a state
whose replay state holds the revealed set `{"a"}` the replay state
(and with it `visibleNodes`/`visibleEdges`) is discarded, not retained
for static inspection. -/
theorem stopLiveReplay_state_cex :
    (stopLiveReplay
        { proofMode := false, proofTargetId := none, proofDepth := 1,
          proofVisibleNodes := ∅, proofVisibleEdges := ∅, pinned := false,
          pinnedNode := none, liveReplayRunning := true,
          liveReplayTimer := true,
          liveReplayState := some
            { ordered := [], edges := [], visibleNodes := {"a"},
              visibleEdges := ∅ } }).liveReplayState = none ∧
    ({ proofMode := false, proofTargetId := none, proofDepth := 1,
       proofVisibleNodes := ∅, proofVisibleEdges := ∅, pinned := false,
       pinnedNode := none, liveReplayRunning := true,
       liveReplayTimer := true,
       liveReplayState := some
         { ordered := [], edges := [], visibleNodes := {"a"},
           visibleEdges := ∅ } } : ComponentState).liveReplayState ≠ none := by
  refine ⟨rfl, by decide⟩

/-- C8 (amended): `stopLiveReplay` halts the ticking timer and performs
no mutation of any other component field (the proof-mode fields and pin
state are untouched, and no clearing operation runs on the revealed
sets themselves), but it discards the whole replay state — the
reference is nulled, consistent with §3's "ReplayState … destroyed on
stop" — rather than keeping the revealed sets for inspection. -/
theorem stopLiveReplay_halts_and_discards (st : ComponentState) :
    (stopLiveReplay st).liveReplayTimer = false ∧
    (stopLiveReplay st).liveReplayRunning = false ∧
    (stopLiveReplay st).liveReplayState = none ∧
    (stopLiveReplay st).proofMode = st.proofMode ∧
    (stopLiveReplay st).proofTargetId = st.proofTargetId ∧
    (stopLiveReplay st).proofDepth = st.proofDepth ∧
    (stopLiveReplay st).proofVisibleNodes = st.proofVisibleNodes ∧
    (stopLiveReplay st).proofVisibleEdges = st.proofVisibleEdges ∧
    (stopLiveReplay st).pinned = st.pinned ∧
    (stopLiveReplay st).pinnedNode = st.pinnedNode :=
  ⟨rfl, rfl, rfl, rfl, rfl, rfl, rfl, rfl, rfl, rfl⟩

/-- C9 (counterexample): `romanToInt` does not return 0 on every
malformed input: `"XYZ"` is not a Roman numeral (it contains the
non-numeral characters `Y` and `Z`), yet `romanToInt "XYZ" = 10`. -/
theorem romanToInt_malformed_cex :
    ¬ (∀ c ∈ ("XYZ" : String).data, isRomanLetter c = true) ∧
    romanToInt "XYZ" = 10 := by
  refine ⟨by decide, by decide⟩

/-- C9 (amended): `romanToInt` parses subtractively over I,V,X,L,C,D,M
(case-insensitively), e.g. `VIII ↦ 8` and `IV ↦ 4`; characters outside
the alphabet contribute value 0, so a string with no numeral characters
yields 0 — but malformed strings that do contain numeral characters can
return nonzero values. -/
theorem romanToInt_subtractive :
    romanToInt "VIII" = 8 ∧ romanToInt "IV" = 4 ∧ romanToInt "viii" = 8 ∧
    ∀ s : String, (∀ c ∈ s.data, romanVal c.toUpper = 0) → romanToInt s = 0 := by
  refine ⟨by decide, by decide, by decide, ?_⟩
  intro s h
  rw [romanToInt]
  exact romanLoop_eq_zero (by
    intro c hc
    obtain ⟨c0, hc0, rfl⟩ := List.mem_map.mp hc
    exact h c0 hc0)

theorem romanToInt_subtractive_witness :
    (∀ c ∈ ("ab" : String).data, romanVal c.toUpper = 0) ∧
    romanToInt "ab" = 0 :=
  ⟨by decide, romanToInt_subtractive.2.2.2 "ab" (by decide)⟩

/-- C1: the edge normalizer implements the 4.1 table, rule conditions
being mutually exclusive on `dep = dependency_type || 'internal'`:
`used_in` kept as-is; `uses_result`/`uses_definition`/`is_corollary_of`
swapped and relabelled `used_in`; generalization edges swapped and
relabelled `generalized_by`; `internal` edges whose
`reference_type`/`type` is `internal` swapped keeping `internal`;
`provides_remark` dropped; everything else passed through unchanged —
and `processGraphData`'s normalized edge set is the `filterMap` of this
per-edge function. -/
theorem normalizeEdge_implements_table (gd : ConstellationGraphData)
    (e : ConstellationEdge) :
    ((processGraphData gd).edges = gd.edges.filterMap normalizeEdge) ∧
    (e.dependency_type = none → depOf e = "internal") ∧
    (depOf e = "used_in" → normalizeEdge e = some e) ∧
    (depOf e = "uses_result" ∨ depOf e = "uses_definition" ∨
        depOf e = "is_corollary_of" →
      normalizeEdge e = some { e with dependency_type := some "used_in", source := e.target, target := e.source }) ∧
    (depOf e = "is_generalization_of" ∨ depOf e = "generalized_by" →
      normalizeEdge e = some { e with dependency_type := some "generalized_by", source := e.target, target := e.source }) ∧
    (depOf e = "internal" →
      (refOf e = some "internal" ∨ typOf e = some "internal") →
      normalizeEdge e = some { e with dependency_type := some "internal", source := e.target, target := e.source }) ∧
    (depOf e = "provides_remark" → normalizeEdge e = none) ∧
    (depOf e ∉ (["used_in", "uses_result", "uses_definition",
        "is_corollary_of", "is_generalization_of", "generalized_by",
        "provides_remark"] : List String) →
      ¬ (depOf e = "internal" ∧
          (refOf e = some "internal" ∨ typOf e = some "internal")) →
      normalizeEdge e = some e) := by
  refine ⟨rfl, ?_, ?_, ?_, ?_, ?_, ?_, ?_⟩
  · intro h
    rw [depOf, h]
    rfl
  · intro h
    have hdep : e.dependency_type = some "used_in" :=
      jsOr_eq_some h (by decide)
    rw [normalizeEdge, if_pos h]
    have : ({ e with dependency_type := some "used_in" } : ConstellationEdge) = e := by
      rw [← hdep]
    rw [this]
  · intro h
    have h1 : ¬ depOf e = "used_in" := by
      rcases h with h | h | h <;> rw [h] <;> decide
    rw [normalizeEdge, if_neg h1, if_pos h]
  · intro h
    have h1 : ¬ depOf e = "used_in" := by
      rcases h with h | h <;> rw [h] <;> decide
    have h2 : ¬ (depOf e = "uses_result" ∨ depOf e = "uses_definition" ∨
        depOf e = "is_corollary_of") := by
      rcases h with h | h <;> rw [h] <;> decide
    rw [normalizeEdge, if_neg h1, if_neg h2, if_pos h]
  · intro h hrt
    have h1 : ¬ depOf e = "used_in" := by rw [h]; decide
    have h2 : ¬ (depOf e = "uses_result" ∨ depOf e = "uses_definition" ∨
        depOf e = "is_corollary_of") := by rw [h]; decide
    have h3 : ¬ (depOf e = "is_generalization_of" ∨
        depOf e = "generalized_by") := by rw [h]; decide
    rw [normalizeEdge, if_neg h1, if_neg h2, if_neg h3, if_pos ⟨h, hrt⟩]
  · intro h
    have h1 : ¬ depOf e = "used_in" := by rw [h]; decide
    have h2 : ¬ (depOf e = "uses_result" ∨ depOf e = "uses_definition" ∨
        depOf e = "is_corollary_of") := by rw [h]; decide
    have h3 : ¬ (depOf e = "is_generalization_of" ∨
        depOf e = "generalized_by") := by rw [h]; decide
    have h4 : ¬ (depOf e = "internal" ∧
        (refOf e = some "internal" ∨ typOf e = some "internal")) := by
      rintro ⟨hi, -⟩
      rw [h] at hi
      exact absurd hi (by decide)
    rw [normalizeEdge, if_neg h1, if_neg h2, if_neg h3, if_neg h4, if_pos h]
  · intro hmem h4
    simp only [List.mem_cons, List.not_mem_nil, or_false, not_or] at hmem
    obtain ⟨h1, h2a, h2b, h2c, h3a, h3b, h5⟩ := hmem
    rw [normalizeEdge, if_neg h1,
      if_neg (by simp [h2a, h2b, h2c]),
      if_neg (by simp [h3a, h3b]), if_neg h4, if_neg h5]

/-- C4 (counterexample): `compareFirstOccurrence` is not transitive on
nodes with partial metadata.  With `nodeM` lacking a `col_start`, the
column stage is skipped against it and labels decide instead:
`nodeM < nodeZ` (labels `M < Z`) and `nodeA < nodeM` (labels `A < M`),
yet `nodeZ < nodeA` by the column comparison `1 < 2` — so the comparator
is not a total order and no transitivity-based sorting guarantee
holds. -/
theorem compareFirstOccurrence_not_transitive_cex :
    0 < compareFirstOccurrence nodeZ nodeM ∧
    0 < compareFirstOccurrence nodeM nodeA ∧
    compareFirstOccurrence nodeZ nodeA < 0 := by
  refine ⟨by decide, by decide, by decide⟩

/-- C4 (amended): `compareFirstOccurrence` is reflexive-at-zero
(`compare(a,a) = 0`, so irreflexive as a strict order) and antisymmetric
(`compare(a,b) = -compare(b,a)`) over every node set with
arbitrary/partial metadata, but it is *not* transitive in general (a
node missing `col_start` is compared by label against nodes whose
columns order them the other way), hence not a total order, and no
sort-stability/idempotence property can be derived from it. -/
theorem compareFirstOccurrence_irrefl_antisymm (a b : ConstellationNode) :
    compareFirstOccurrence a a = 0 ∧
    compareFirstOccurrence a b = -compareFirstOccurrence b a := by
  constructor
  · have h := compareFirstOccurrence_anti a a
    omega
  · exact compareFirstOccurrence_anti a b

theorem normalizeEdge_implements_table_witness :
    (depOf usesResultAB = "uses_result" ∨
      depOf usesResultAB = "uses_definition" ∨
      depOf usesResultAB = "is_corollary_of") ∧
    normalizeEdge usesResultAB =
      some { source := "B", target := "A", dependency_type := some "used_in" } :=
  ⟨Or.inl (by decide),
    (normalizeEdge_implements_table { nodes := [], edges := [] }
      usesResultAB).2.2.2.1 (Or.inl (by decide))⟩

end SGA
